import Mathlib

/-!
Verification of the `UFData` union-find structure from `src/types.h` of the
Semigroups package.

The C++ class `UFData` holds
  * `_size       : size_t`                 (fixed universe size),
  * `_table      : vector<size_t>*`        (parent table),
  * `_blocks     : vector<vector<size_t>*>*` (lazily materialized blocks,
                                            `nullptr` until first `get_blocks`,
                                            entries `nullptr` for absent keys),
  * `_haschanged : bool`                   (dirty flag).

We embed it shallowly: the parent table is a `List Nat`, the block cache is an
`Option (List (Option (List Nat)))`, and `vector::at` bounds failures become an
explicit exception value.  The `find` loop is modelled with explicit fuel,
since the C++ loop need not terminate on arbitrary tables; on all reachable
states we prove fuel `i + 1` suffices.
-/

namespace UF

/-- Result of the C++ `find` loop: either the root, or a `std::out_of_range`
exception thrown by `vector::at`. -/
inductive FRes where
  | ok (r : Nat)
  | err
deriving DecidableEq, Repr

/-- Failure modes of the operations: `oob` is `std::out_of_range` thrown by
`vector::at`; `nullref` marks the undefined behaviour of dereferencing a null
block pointer. -/
inductive Err where
  | oob
  | nullref
deriving DecidableEq, Repr

/-- Outcome of a mutating operation: normal return with resulting object
state, or an exception leaving the object in the given state. -/
inductive OpRes (α : Type) where
  | ok (a : α)
  | exn (e : Err) (a : α)
deriving DecidableEq, Repr

/-- The `find` loop of `UFData::find`:
`do { ii = i; i = _table->at(ii); } while (ii != i); return i;`
Each iteration reads `t.at(i)`; if it equals `i` the loop stops, otherwise it
continues from the value read.  `none` means the fuel ran out (the loop would
still be running). -/
def findAux (t : List Nat) : Nat → Nat → Option FRes
  | 0, _ => none
  | fuel + 1, i =>
    match t[i]? with
    | none => some .err
    | some j => if j = i then some (.ok i) else findAux t fuel j

/-- The state of a `UFData` object. -/
structure UFData where
  size : Nat
  table : List Nat
  blocks : Option (List (Option (List Nat)))
  haschanged : Bool
deriving DecidableEq, Repr

/-- `UFData::UFData(size_t size)`: `_table` is filled with `0, 1, …, size-1`,
`_blocks` is null, `_haschanged` is false. -/
def UFData.init (size : Nat) : UFData :=
  { size := size, table := List.range size, blocks := none, haschanged := false }

/-- `UFData::find(size_t i)`, a pure read of the table. -/
def find (fuel : Nat) (s : UFData) (i : Nat) : Option FRes :=
  findAux s.table fuel i

/-- `UFData::unite(size_t i, size_t j)`: computes the two roots, writes the
smaller one into the table slot of the larger (`_table->at(jj) = ii` when
`ii < jj`, otherwise `_table->at(ii) = jj`), then sets `_haschanged = true`.
An exception from `find` escapes before any write, leaving the object
unchanged. -/
def unite (fuel : Nat) (s : UFData) (i j : Nat) : Option (OpRes UFData) :=
  match findAux s.table fuel i with
  | none => none
  | some .err => some (.exn .oob s)
  | some (.ok ii) =>
    match findAux s.table fuel j with
    | none => none
    | some .err => some (.exn .oob s)
    | some (.ok jj) =>
      if ii < jj then
        if jj < s.table.length then
          some (.ok { s with table := s.table.set jj ii, haschanged := true })
        else some (.exn .oob s)
      else
        if ii < s.table.length then
          some (.ok { s with table := s.table.set ii jj, haschanged := true })
        else some (.exn .oob s)

/-- The loop of `UFData::flatten`: for `i` in `0..size-1`,
`_table->at(i) = find(i)`.  `rem` counts the remaining iterations. -/
def flattenAux (fuel : Nat) : List Nat → Nat → Nat → Option (OpRes (List Nat))
  | t, _, 0 => some (.ok t)
  | t, i, rem + 1 =>
    match findAux t fuel i with
    | none => none
    | some .err => some (.exn .oob t)
    | some (.ok r) =>
      if i < t.length then flattenAux fuel (t.set i r) (i + 1) rem
      else some (.exn .oob t)

/-- `UFData::flatten()`. -/
def flatten (fuel : Nat) (s : UFData) : Option (OpRes UFData) :=
  match flattenAux fuel s.table 0 s.size with
  | none => none
  | some (.exn e t) => some (.exn e { s with table := t })
  | some (.ok t) => some (.ok { s with table := t })

/-- Fresh block table built by `get_blocks` when `_blocks == nullptr`:
one singleton block `[i]` per index `i`. -/
def initBlocks (size : Nat) : List (Option (List Nat)) :=
  (List.range size).map (fun i => some [i])

/-- The reconciliation loop of `UFData::get_blocks` (run when `_haschanged`):
for `i` in `0..size-1`, if `_blocks->at(i)` is non-null and `ii = find(i)`
differs from `i`, append block `i` onto block `ii` and null out entry `i`. -/
def reconAux (fuel : Nat) (t : List Nat) :
    List (Option (List Nat)) → Nat → Nat → Option (OpRes (List (Option (List Nat))))
  | b, _, 0 => some (.ok b)
  | b, i, rem + 1 =>
    match b[i]? with
    | none => some (.exn .oob b)
    | some none => reconAux fuel t b (i + 1) rem
    | some (some li) =>
      match findAux t fuel i with
      | none => none
      | some .err => some (.exn .oob b)
      | some (.ok ii) =>
        if ii = i then reconAux fuel t b (i + 1) rem
        else
          match b[ii]? with
          | none => some (.exn .oob b)
          | some none => some (.exn .nullref b)
          | some (some lii) =>
            reconAux fuel t ((b.set ii (some (lii ++ li))).set i none) (i + 1) rem

/-- `UFData::get_blocks()`: materializes `_blocks` with singletons if null,
reconciles when `_haschanged` (then clears the flag), and returns the blocks
together with the resulting object state. -/
def get_blocks (fuel : Nat) (s : UFData) :
    Option (OpRes (UFData × List (Option (List Nat)))) :=
  let b0 := match s.blocks with
            | none => initBlocks s.size
            | some b => b
  if s.haschanged then
    match reconAux fuel s.table b0 0 s.size with
    | none => none
    | some (.exn e b1) => some (.exn e ({ s with blocks := some b1 }, b1))
    | some (.ok b1) =>
      some (.ok ({ s with blocks := some b1, haschanged := false }, b1))
  else
    some (.ok ({ s with blocks := some b0 }, b0))

/-- The root of `i` in table `t`: the value of `find` run with fuel `i + 1`
(enough on every reachable table, as proved below); falls back to `i` when
the loop would overrun that fuel or throw. -/
def root (t : List Nat) (i : Nat) : Nat :=
  match findAux t (i + 1) i with
  | some (.ok r) => r
  | _ => i

/-- All member indices stored in a block table, in order. -/
def elems (b : List (Option (List Nat))) : List Nat :=
  (b.map (fun o => o.getD [])).flatten

/-- The object state held in an operation result. -/
def resState : OpRes (UFData × List (Option (List Nat))) → UFData
  | .ok (s, _) => s
  | .exn _ (s, _) => s

/-- One public operation of the structure. -/
inductive Op where
  | u (i j : Nat)
  | fl
  | bl
deriving DecidableEq, Repr

/-- Run one operation. -/
def runOp (fuel : Nat) (s : UFData) : Op → Option (OpRes UFData)
  | .u i j => unite fuel s i j
  | .fl => flatten fuel s
  | .bl => (get_blocks fuel s).map (fun r =>
      match r with
      | .ok (s', _) => .ok s'
      | .exn e (s', _) => .exn e s')

/-- Run a sequence of operations, demanding normal completion of each. -/
def run (fuel : Nat) (s : UFData) : List Op → Option UFData
  | [] => some s
  | op :: ops =>
    match runOp fuel s op with
    | some (.ok s') => run fuel s' ops
    | _ => none

/-- One step of the structure's state machine: a successful `unite` with
in-range arguments, a successful `flatten`, or a successful `get_blocks`. -/
inductive UStep (n : Nat) : UFData → UFData → Prop
  | uniteStep (s s' : UFData) (i j fuel : Nat) : i < n → j < n →
      unite fuel s i j = some (.ok s') → UStep n s s'
  | flattenStep (s s' : UFData) (fuel : Nat) :
      flatten fuel s = some (.ok s') → UStep n s s'
  | blocksStep (s s' : UFData) (b : List (Option (List Nat))) (fuel : Nat) :
      get_blocks fuel s = some (.ok (s', b)) → UStep n s s'

/-- States reachable from a fresh structure of size `n` by in-range `unite`,
`flatten` and `get_blocks` calls. -/
def Reachable (n : Nat) (s : UFData) : Prop :=
  Relation.ReflTransGen (UStep n) (UFData.init n) s

/-- Every parent entry is at most its index.  This holds in all reachable
states and is what makes the `find` loop terminate. -/
@[reducible] def EntriesLE (t : List Nat) : Prop :=
  ∀ (i j : Nat), t[i]? = some j → j ≤ i

/-- Well-formedness of a block table `b` relative to the current parent table
`t` of a structure of size `n`.  It holds at every reachable state whose
blocks are materialized, whether or not they are stale. -/
structure BInv (n : Nat) (t : List Nat) (b : List (Option (List Nat))) : Prop where
  len : b.length = n
  counts : ∀ k : Nat, (elems b).count k = (List.range n).count k
  memroot : ∀ (p : Nat) (l : List Nat), b[p]? = some (some l) →
    ∀ m ∈ l, root t m = root t p
  headp : ∀ (p : Nat) (l : List Nat), b[p]? = some (some l) → l.head? = some p
  rootskey : ∀ r : Nat, r < n → root t r = r → ∃ l, b[r]? = some (some l)

/-- The invariant satisfied by every reachable `UFData` state. -/
structure StateInv (n : Nat) (s : UFData) : Prop where
  size_eq : s.size = n
  len : s.table.length = n
  ent : EntriesLE s.table
  binv : ∀ b, s.blocks = some b → BInv n s.table b
  clean : s.haschanged = false → ∀ b, s.blocks = some b →
    ∀ (p : Nat) (l : List Nat), b[p]? = some (some l) → root s.table p = p
  cleanNone : s.haschanged = false → s.blocks = none →
    ∀ i : Nat, i < n → root s.table i = i

theorem findAux_mono (t : List Nat) :
    ∀ {f f' i : Nat} {o : FRes}, findAux t f i = some o → f ≤ f' →
      findAux t f' i = some o := by
  intro f
  induction f with
  | zero => intro f' i o h; simp [findAux] at h
  | succ f ih =>
    intro f' i o h hf
    obtain ⟨g, rfl⟩ : ∃ g, f' = g + 1 := ⟨f' - 1, by omega⟩
    simp only [findAux] at h ⊢
    cases hgi : t[i]? with
    | none => simp only [hgi] at h ⊢; exact h
    | some j =>
      simp only [hgi] at h ⊢
      by_cases hji : j = i
      · simpa [hji] using h
      · simp only [if_neg hji] at h ⊢
        exact ih h (by omega)

theorem findAux_ok_lt {t : List Nat} {f i r : Nat}
    (h : findAux t f i = some (.ok r)) : i < t.length := by
  match f with
  | 0 => simp [findAux] at h
  | f + 1 =>
    simp only [findAux] at h
    cases hgi : t[i]? with
    | none => simp [hgi] at h
    | some j => exact (List.getElem?_eq_some.mp hgi).1

theorem findAux_term (t : List Nat) (hE : EntriesLE t) :
    ∀ i, i < t.length → ∃ r, findAux t (i + 1) i = some (.ok r) ∧ r ≤ i ∧
      t[r]? = some r := by
  intro i
  induction i using Nat.strong_induction_on with
  | _ i ih =>
    intro hi
    obtain ⟨j, hj⟩ : ∃ j, t[i]? = some j := ⟨t[i], List.getElem?_eq_getElem hi⟩
    have hji : j ≤ i := hE i j hj
    by_cases hj_eq : j = i
    · exact ⟨i, by simp [findAux, hj, hj_eq], le_refl i, hj_eq ▸ hj⟩
    · have hjlt : j < i := lt_of_le_of_ne hji hj_eq
      obtain ⟨r, hr, hri, hrfix⟩ := ih j hjlt (lt_trans hjlt hi)
      refine ⟨r, ?_, le_trans hri (le_of_lt hjlt), hrfix⟩
      simp only [findAux, hj, if_neg hj_eq]
      exact findAux_mono t hr (by omega)

theorem root_spec (t : List Nat) (hE : EntriesLE t) {i : Nat}
    (hi : i < t.length) :
    findAux t (i + 1) i = some (.ok (root t i)) ∧ root t i ≤ i ∧
      t[root t i]? = some (root t i) := by
  obtain ⟨r, hr, hri, hrfix⟩ := findAux_term t hE i hi
  have : root t i = r := by simp [root, hr]
  rw [this]
  exact ⟨hr, hri, hrfix⟩

theorem root_le (t : List Nat) (hE : EntriesLE t) {i : Nat}
    (hi : i < t.length) : root t i ≤ i :=
  (root_spec t hE hi).2.1

theorem root_fix (t : List Nat) (hE : EntriesLE t) {i : Nat}
    (hi : i < t.length) : t[root t i]? = some (root t i) :=
  (root_spec t hE hi).2.2

theorem root_oob (t : List Nat) {i : Nat} (hi : t.length ≤ i) :
    root t i = i := by
  have : t[i]? = none := List.getElem?_eq_none hi
  simp [root, findAux, this]

theorem findAux_eq_root (t : List Nat) (hE : EntriesLE t) {i : Nat}
    (hi : i < t.length) {f : Nat} (hf : i + 1 ≤ f) :
    findAux t f i = some (.ok (root t i)) :=
  findAux_mono t (root_spec t hE hi).1 hf

theorem root_eq_self_of_fix (t : List Nat) {i : Nat} (h : t[i]? = some i) :
    root t i = i := by
  simp [root, findAux, h]

theorem root_root (t : List Nat) (hE : EntriesLE t) {i : Nat}
    (hi : i < t.length) : root t (root t i) = root t i :=
  root_eq_self_of_fix t (root_fix t hE hi)

theorem root_lt_length (t : List Nat) (hE : EntriesLE t) {i : Nat}
    (hi : i < t.length) : root t i < t.length :=
  (List.getElem?_eq_some.mp (root_fix t hE hi)).1

theorem root_step (t : List Nat) (hE : EntriesLE t) {i j : Nat}
    (hij : t[i]? = some j) (hne : j ≠ i) : root t i = root t j := by
  have hi : i < t.length := (List.getElem?_eq_some.mp hij).1
  have hjlt : j < i := lt_of_le_of_ne (hE i j hij) hne
  have hj : j < t.length := lt_trans hjlt hi
  have h1 : findAux t (i + 1) i = findAux t i j := by
    simp [findAux, hij, hne]
  have h2 : findAux t i j = some (.ok (root t j)) :=
    findAux_eq_root t hE hj (by omega)
  simp [root, h1, h2]

theorem findAux_ok_unique (t : List Nat) (hE : EntriesLE t) {f i r : Nat}
    (h : findAux t f i = some (.ok r)) : r = root t i := by
  have hi : i < t.length := findAux_ok_lt h
  have h1 : findAux t (max f (i + 1)) i = some (.ok r) :=
    findAux_mono t h (le_max_left _ _)
  have h2 : findAux t (max f (i + 1)) i = some (.ok (root t i)) :=
    findAux_mono t (root_spec t hE hi).1 (le_max_right _ _)
  rw [h1] at h2
  simpa using h2

theorem root_eq_self_iff (t : List Nat) (hE : EntriesLE t) {i : Nat}
    (hi : i < t.length) : root t i = i ↔ t[i]? = some i := by
  constructor
  · intro h
    have := root_fix t hE hi
    rwa [h] at this
  · exact root_eq_self_of_fix t

theorem entriesLE_set (t : List Nat) (hE : EntriesLE t) {p v : Nat}
    (hv : v ≤ p) : EntriesLE (t.set p v) := by
  intro i j hij
  by_cases hip : i = p
  · subst hip
    by_cases hp : i < t.length
    · rw [List.getElem?_set_self hp] at hij
      cases hij
      exact hv
    · rw [List.set_eq_of_length_le (by omega)] at hij
      exact hE i j hij
  · rw [List.getElem?_set_ne (fun h => hip h.symm)] at hij
    exact hE i j hij

/-- Master lemma: writing a root `v` into slot `p` (with `v ≤ p`, and either
`p` itself a root or `v` the root of `p`) sends every index whose root was `p`
to `v` and leaves all other roots unchanged.  Instantiated by both `unite`
(`p` a root, `v` the other root) and `flatten` (`v = root t p`). -/
theorem root_set (t : List Nat) (hE : EntriesLE t) {p v : Nat}
    (hp : p < t.length) (hv : v ≤ p) (hvroot : root t v = v)
    (hcase : root t p = p ∨ v = root t p) :
    ∀ x, root (t.set p v) x = if root t x = p then v else root t x := by
  have hE' : EntriesLE (t.set p v) := entriesLE_set t hE hv
  intro x
  induction x using Nat.strong_induction_on with
  | _ x ih =>
    by_cases hx : x < t.length
    · by_cases hxp : x = p
      · subst hxp
        have hxv : (t.set x v)[x]? = some v := List.getElem?_set_self hx
        by_cases hvx : v = x
        · subst hvx
          rw [root_eq_self_of_fix _ hxv]
          rcases hcase with h | h
          · simp [h]
          · simp [← h, hvroot]
        · have hstep : root (t.set x v) x = root (t.set x v) v :=
            root_step _ hE' hxv hvx
          have hvlt : v < x := lt_of_le_of_ne hv hvx
          have hihv := ih v hvlt
          have hvne : root t v ≠ x := by rw [hvroot]; omega
          rw [if_neg hvne] at hihv
          rw [hstep, hihv, hvroot]
          rcases hcase with h | h
          · simp [h]
          · simp [← h]
      · obtain ⟨j, hj⟩ : ∃ j, t[x]? = some j := ⟨t[x], List.getElem?_eq_getElem hx⟩
        have hj' : (t.set p v)[x]? = some j :=
          (List.getElem?_set_ne (fun h => hxp h.symm)).trans hj
        by_cases hjx : j = x
        · subst hjx
          rw [root_eq_self_of_fix _ hj', root_eq_self_of_fix _ hj, if_neg hxp]
        · have hjlt : j < x := lt_of_le_of_ne (hE x j hj) hjx
          rw [root_step _ hE' hj' hjx, root_step t hE hj hjx, ih j hjlt]
    · have hlen : (t.set p v).length = t.length := List.length_set t p v
      rw [root_oob t (by omega), root_oob _ (by omega), if_neg (by omega)]

theorem elems_cons (o : Option (List Nat)) (b : List (Option (List Nat))) :
    elems (o :: b) = o.getD [] ++ elems b := rfl

theorem count_elems_set (k : Nat) :
    ∀ (b : List (Option (List Nat))) (p : Nat) (o x : Option (List Nat)),
      b[p]? = some o →
      (elems (b.set p x)).count k + (o.getD []).count k
        = (elems b).count k + (x.getD []).count k := by
  intro b
  induction b with
  | nil => intro p o x h; simp at h
  | cons hd tl ih =>
    intro p o x h
    cases p with
    | zero =>
      simp only [List.getElem?_cons_zero, Option.some.injEq] at h
      subst h
      simp only [List.set_cons_zero, elems_cons, List.count_append]
      omega
    | succ q =>
      simp only [List.getElem?_cons_succ] at h
      simp only [List.set_cons_succ, elems_cons, List.count_append]
      have := ih q o x h
      omega

theorem count_le_of_key (k : Nat) :
    ∀ (b : List (Option (List Nat))) (p : Nat) (l : List Nat),
      b[p]? = some (some l) → l.count k ≤ (elems b).count k := by
  intro b
  induction b with
  | nil => intro p l h; simp at h
  | cons hd tl ih =>
    intro p l h
    cases p with
    | zero =>
      simp only [List.getElem?_cons_zero, Option.some.injEq] at h
      subst h
      simp [elems_cons, List.count_append]
    | succ q =>
      simp only [List.getElem?_cons_succ] at h
      have := ih q l h
      simp only [elems_cons, List.count_append]
      omega

theorem mem_elems_key :
    ∀ (b : List (Option (List Nat))) (m : Nat), m ∈ elems b →
      ∃ (p : Nat) (l : List Nat), b[p]? = some (some l) ∧ m ∈ l := by
  intro b
  induction b with
  | nil => intro m h; simp [elems] at h
  | cons hd tl ih =>
    intro m h
    rw [elems_cons, List.mem_append] at h
    rcases h with h | h
    · cases hd with
      | none => simp at h
      | some l => exact ⟨0, l, by simp, by simpa using h⟩
    · obtain ⟨q, l, hq, hm⟩ := ih m h
      exact ⟨q + 1, l, by simpa using hq, hm⟩

theorem elems_initBlocks (n : Nat) : elems (initBlocks n) = List.range n := by
  induction n with
  | zero => rfl
  | succ m ih =>
    rw [List.range_succ]
    simp only [initBlocks, List.range_succ, List.map_append]
    show elems ((List.range m).map (fun i => some [i]) ++ [some [m]]) = _
    rw [show ∀ (u v : List (Option (List Nat))), elems (u ++ v)
          = elems u ++ elems v from fun u v => by simp [elems]]
    rw [show elems ((List.range m).map (fun i => some [i]))
          = elems (initBlocks m) from rfl, ih]
    rfl

theorem flattenAux_mono :
    ∀ (rem : Nat) (t : List Nat) (i fuel fuel' : Nat) (r : OpRes (List Nat)),
      flattenAux fuel t i rem = some r → fuel ≤ fuel' →
      flattenAux fuel' t i rem = some r := by
  intro rem
  induction rem with
  | zero => intro t i fuel fuel' r h hf; simpa [flattenAux] using h
  | succ rem ih =>
    intro t i fuel fuel' r h hf
    simp only [flattenAux] at h ⊢
    cases hfa : findAux t fuel i with
    | none => rw [hfa] at h; exact absurd h (by simp)
    | some o =>
      rw [hfa] at h
      rw [findAux_mono t hfa hf]
      cases o with
      | err => exact h
      | ok rt =>
        simp only at h ⊢
        by_cases hi : i < t.length
        · rw [if_pos hi] at h ⊢
          exact ih _ _ _ _ _ h hf
        · rwa [if_neg hi] at h ⊢

theorem flattenAux_spec :
    ∀ (rem i : Nat) (t : List Nat) (fuel : Nat), EntriesLE t →
      i + rem ≤ t.length → i + rem ≤ fuel →
      ∃ t', flattenAux fuel t i rem = some (.ok t') ∧
        t'.length = t.length ∧ EntriesLE t' ∧ (∀ x, root t' x = root t x) := by
  intro rem
  induction rem with
  | zero =>
    intro i t fuel hE hlen hf
    exact ⟨t, by simp [flattenAux], rfl, hE, fun x => rfl⟩
  | succ rem ih =>
    intro i t fuel hE hlen hf
    have hi : i < t.length := by omega
    have hfa : findAux t fuel i = some (.ok (root t i)) :=
      findAux_eq_root t hE hi (by omega)
    have hrle : root t i ≤ i := root_le t hE hi
    have hrr : root t (root t i) = root t i := root_root t hE hi
    have hroots : ∀ x, root (t.set i (root t i)) x = root t x := by
      intro x
      rw [root_set t hE hi hrle hrr (Or.inr rfl) x]
      by_cases hx : root t x = i
      · rw [if_pos hx]
        by_cases hxl : x < t.length
        · rw [← hx, root_root t hE hxl]
        · rw [root_oob t (by omega)] at hx
          omega
      · rw [if_neg hx]
    have hE1 : EntriesLE (t.set i (root t i)) := entriesLE_set t hE hrle
    have hlen1 : (t.set i (root t i)).length = t.length := List.length_set t i _
    obtain ⟨t', ht', hl', hE', hr'⟩ :=
      ih (i + 1) (t.set i (root t i)) fuel hE1 (by omega) (by omega)
    refine ⟨t', ?_, by omega, hE', fun x => (hr' x).trans (hroots x)⟩
    simp only [flattenAux, hfa, if_pos hi]
    exact ht'

theorem flatten_spec (s : UFData) (fuel : Nat) (hE : EntriesLE s.table)
    (hlen : s.table.length = s.size) (hf : s.size ≤ fuel) :
    ∃ s', flatten fuel s = some (.ok s') ∧ s'.size = s.size ∧
      s'.blocks = s.blocks ∧ s'.haschanged = s.haschanged ∧
      s'.table.length = s.table.length ∧ EntriesLE s'.table ∧
      (∀ x, root s'.table x = root s.table x) := by
  obtain ⟨t', ht', hl, hE', hr⟩ :=
    flattenAux_spec s.size 0 s.table fuel hE (by omega) (by omega)
  exact ⟨{ s with table := t' }, by simp [flatten, ht'], rfl, rfl, rfl, hl, hE', hr⟩

theorem flatten_ok_char (s s' : UFData) (fuel : Nat) (hE : EntriesLE s.table)
    (hlen : s.table.length = s.size)
    (h : flatten fuel s = some (.ok s')) :
    s'.size = s.size ∧ s'.blocks = s.blocks ∧ s'.haschanged = s.haschanged ∧
    s'.table.length = s.table.length ∧ EntriesLE s'.table ∧
    (∀ x, root s'.table x = root s.table x) := by
  unfold flatten at h
  cases hfa : flattenAux fuel s.table 0 s.size with
  | none => rw [hfa] at h; simp at h
  | some r =>
    rw [hfa] at h
    cases r with
    | exn e t => simp at h
    | ok t =>
      simp only [Option.some.injEq, OpRes.ok.injEq] at h
      subst h
      obtain ⟨t2, ht2, hl, hE', hr⟩ :=
        flattenAux_spec s.size 0 s.table (max fuel s.size) hE (by omega) (by omega)
      have hmono := flattenAux_mono s.size s.table 0 fuel (max fuel s.size) _
        hfa (le_max_left _ _)
      rw [ht2] at hmono
      have ht : t2 = t := by simpa using hmono
      subst ht
      exact ⟨rfl, rfl, rfl, hl, hE', hr⟩

theorem root_min_max (t : List Nat) (hE : EntriesLE t) {i j : Nat}
    (hi : i < t.length) (hj : j < t.length) :
    root t (min (root t i) (root t j)) = min (root t i) (root t j) ∧
    root t (max (root t i) (root t j)) = max (root t i) (root t j) := by
  rcases le_total (root t i) (root t j) with hle | hle
  · rw [min_eq_left hle, max_eq_right hle]
    exact ⟨root_root t hE hi, root_root t hE hj⟩
  · rw [min_eq_right hle, max_eq_left hle]
    exact ⟨root_root t hE hj, root_root t hE hi⟩

/-- Effect of `unite`'s table write on `root`: everything in the class of the
larger root moves to the smaller root; all other classes are untouched. -/
theorem root_unite (t : List Nat) (hE : EntriesLE t) {i j : Nat}
    (hi : i < t.length) (hj : j < t.length) :
    ∀ x, root (t.set (max (root t i) (root t j)) (min (root t i) (root t j))) x
      = if root t x = max (root t i) (root t j)
        then min (root t i) (root t j) else root t x := by
  obtain ⟨hmin, hmax⟩ := root_min_max t hE hi hj
  apply root_set t hE
  · rcases le_total (root t i) (root t j) with hle | hle
    · rw [max_eq_right hle]; exact root_lt_length t hE hj
    · rw [max_eq_left hle]; exact root_lt_length t hE hi
  · exact min_le_max
  · exact hmin
  · exact Or.inl hmax

theorem unite_eq (s : UFData) (i j fuel : Nat) (hE : EntriesLE s.table)
    (hi : i < s.table.length) (hj : j < s.table.length)
    (hfi : i + 1 ≤ fuel) (hfj : j + 1 ≤ fuel) :
    unite fuel s i j = some (.ok { s with
      table := s.table.set (max (root s.table i) (root s.table j))
                           (min (root s.table i) (root s.table j)),
      haschanged := true }) := by
  unfold unite
  rw [findAux_eq_root s.table hE hi hfi, findAux_eq_root s.table hE hj hfj]
  dsimp only
  by_cases hlt : root s.table i < root s.table j
  · rw [if_pos hlt, if_pos (root_lt_length s.table hE hj)]
    rw [max_eq_right (le_of_lt hlt), min_eq_left (le_of_lt hlt)]
  · rw [if_neg hlt, if_pos (root_lt_length s.table hE hi)]
    rw [max_eq_left (by omega), min_eq_right (by omega)]

theorem unite_ok_char (s s' : UFData) (i j fuel : Nat) (hE : EntriesLE s.table)
    (h : unite fuel s i j = some (.ok s')) :
    i < s.table.length ∧ j < s.table.length ∧
    s' = { s with
      table := s.table.set (max (root s.table i) (root s.table j))
                           (min (root s.table i) (root s.table j)),
      haschanged := true } := by
  unfold unite at h
  cases hfi : findAux s.table fuel i with
  | none => rw [hfi] at h; simp at h
  | some oi =>
    rw [hfi] at h
    cases oi with
    | err => simp at h
    | ok ii =>
      cases hfj : findAux s.table fuel j with
      | none => rw [hfj] at h; simp at h
      | some oj =>
        rw [hfj] at h
        cases oj with
        | err => simp at h
        | ok jj =>
          have hi : i < s.table.length := findAux_ok_lt hfi
          have hj : j < s.table.length := findAux_ok_lt hfj
          have hii : ii = root s.table i := findAux_ok_unique s.table hE hfi
          have hjj : jj = root s.table j := findAux_ok_unique s.table hE hfj
          subst hii hjj
          dsimp only at h
          refine ⟨hi, hj, ?_⟩
          by_cases hlt : root s.table i < root s.table j
          · rw [if_pos hlt, if_pos (root_lt_length s.table hE hj)] at h
            rw [max_eq_right (le_of_lt hlt), min_eq_left (le_of_lt hlt)]
            simpa using h.symm
          · rw [if_neg hlt, if_pos (root_lt_length s.table hE hi)] at h
            rw [max_eq_left (by omega), min_eq_right (by omega)]
            simpa using h.symm

theorem bInv_initBlocks (n : Nat) (t : List Nat) : BInv n t (initBlocks n) := by
  have hget : ∀ p : Nat, p < n → (initBlocks n)[p]? = some (some [p]) := by
    intro p hp
    simp [initBlocks, List.getElem?_map, List.getElem?_range hp]
  refine ⟨by simp [initBlocks], ?_, ?_, ?_, ?_⟩
  · intro k; rw [elems_initBlocks]
  · intro p l hpl m hm
    by_cases hp : p < n
    · rw [hget p hp] at hpl
      cases hpl
      simp only [List.mem_singleton] at hm
      subst hm; rfl
    · rw [List.getElem?_eq_none (by simp [initBlocks]; omega)] at hpl
      cases hpl
  · intro p l hpl
    by_cases hp : p < n
    · rw [hget p hp] at hpl
      cases hpl
      rfl
    · rw [List.getElem?_eq_none (by simp [initBlocks]; omega)] at hpl
      cases hpl
  · intro r hr _
    exact ⟨[r], hget r hr⟩

theorem reconAux_mono (t : List Nat) :
    ∀ (rem : Nat) (b : List (Option (List Nat))) (i fuel fuel' : Nat)
      (r : OpRes (List (Option (List Nat)))),
      reconAux fuel t b i rem = some r → fuel ≤ fuel' →
      reconAux fuel' t b i rem = some r := by
  intro rem
  induction rem with
  | zero => intro b i fuel fuel' r h hf; simpa [reconAux] using h
  | succ rem ih =>
    intro b i fuel fuel' r h hf
    simp only [reconAux] at h ⊢
    cases hbi : b[i]? with
    | none => simp only [hbi] at h ⊢; exact h
    | some o =>
      simp only [hbi] at h ⊢
      cases o with
      | none => exact ih _ _ _ _ _ h hf
      | some li =>
        dsimp only at h ⊢
        cases hfa : findAux t fuel i with
        | none => simp only [hfa] at h; exact absurd h (by simp)
        | some o2 =>
          simp only [hfa] at h
          rw [findAux_mono t hfa hf]
          cases o2 with
          | err => exact h
          | ok ii =>
            dsimp only at h ⊢
            by_cases hii : ii = i
            · rw [if_pos hii] at h ⊢; exact ih _ _ _ _ _ h hf
            · rw [if_neg hii] at h ⊢
              cases hbii : b[ii]? with
              | none => simp only [hbii] at h ⊢; exact h
              | some o3 =>
                simp only [hbii] at h ⊢
                cases o3 with
                | none => exact h
                | some lii => exact ih _ _ _ _ _ h hf

/-- Correctness of the reconciliation loop: starting from a well-formed block
table with all already-processed non-null keys being roots, the loop completes
normally and yields a well-formed block table all of whose non-null keys are
roots. -/
theorem reconAux_spec (n : Nat) (t : List Nat) (hE : EntriesLE t)
    (hlen : t.length = n) (fuel : Nat) (hfuel : n ≤ fuel) :
    ∀ (rem i : Nat) (b : List (Option (List Nat))), i + rem = n → BInv n t b →
      (∀ (p : Nat) (l : List Nat), p < i → b[p]? = some (some l) → root t p = p) →
      ∃ b', reconAux fuel t b i rem = some (.ok b') ∧ BInv n t b' ∧
        (∀ (p : Nat) (l : List Nat), b'[p]? = some (some l) → root t p = p) := by
  intro rem
  induction rem with
  | zero =>
    intro i b hin hB hproc
    refine ⟨b, by simp [reconAux], hB, ?_⟩
    intro p l hpl
    by_cases hp : p < i
    · exact hproc p l hp hpl
    · exfalso
      have hble : b.length = n := hB.len
      have hnone : b[p]? = none := List.getElem?_eq_none (by omega)
      rw [hnone] at hpl
      cases hpl
  | succ rem ih =>
    intro i b hin hB hproc
    have hitn : i < n := by omega
    have hble : b.length = n := hB.len
    have hibl : i < b.length := by omega
    obtain ⟨o, hbi⟩ : ∃ o, b[i]? = some o := ⟨b[i], List.getElem?_eq_getElem hibl⟩
    cases o with
    | none =>
      have hproc1 : ∀ (p : Nat) (l : List Nat), p < i + 1 →
          b[p]? = some (some l) → root t p = p := by
        intro p l hp hpl
        by_cases hpi : p = i
        · subst hpi; rw [hbi] at hpl; cases hpl
        · exact hproc p l (by omega) hpl
      obtain ⟨b', hb', hB', hall⟩ := ih (i + 1) b (by omega) hB hproc1
      refine ⟨b', ?_, hB', hall⟩
      simp only [reconAux, hbi]
      exact hb'
    | some li =>
      have hfa : findAux t fuel i = some (.ok (root t i)) :=
        findAux_eq_root t hE (by omega) (by omega)
      by_cases hroot : root t i = i
      · have hproc1 : ∀ (p : Nat) (l : List Nat), p < i + 1 →
            b[p]? = some (some l) → root t p = p := by
          intro p l hp hpl
          by_cases hpi : p = i
          · subst hpi; exact hroot
          · exact hproc p l (by omega) hpl
        obtain ⟨b', hb', hB', hall⟩ := ih (i + 1) b (by omega) hB hproc1
        refine ⟨b', ?_, hB', hall⟩
        simp only [reconAux, hbi, hfa, if_pos hroot]
        exact hb'
      · have hrle : root t i ≤ i := root_le t hE (by omega)
        have hiilt : root t i < i := lt_of_le_of_ne hrle hroot
        have hiiroot : root t (root t i) = root t i := root_root t hE (by omega)
        obtain ⟨lii, hbii⟩ := hB.rootskey (root t i) (by omega) hiiroot
        have hne : root t i ≠ i := hroot
        set b1 : List (Option (List Nat)) :=
          (b.set (root t i) (some (lii ++ li))).set i none with hb1def
        have hA : ∀ q : Nat, q ≠ root t i →
            (b.set (root t i) (some (lii ++ li)))[q]? = b[q]? :=
          fun q hq => List.getElem?_set_ne (fun h => hq h.symm)
        have hAlen : (b.set (root t i) (some (lii ++ li))).length = n := by
          simp [List.length_set, hble]
        have hAi : (b.set (root t i) (some (lii ++ li)))[i]? = some (some li) := by
          rw [hA i (fun h => hne h.symm)]; exact hbi
        have hiiA : (b.set (root t i) (some (lii ++ li)))[root t i]?
            = some (some (lii ++ li)) :=
          List.getElem?_set_self (by omega)
        have hb1i : b1[i]? = some none :=
          List.getElem?_set_self (by omega)
        have hb1ii : b1[root t i]? = some (some (lii ++ li)) := by
          rw [hb1def, List.getElem?_set_ne (fun h => hne h.symm), hiiA]
        have hb1q : ∀ q : Nat, q ≠ i → q ≠ root t i → b1[q]? = b[q]? := by
          intro q hqi hqii
          rw [hb1def, List.getElem?_set_ne (fun h => hqi h.symm), hA q hqii]
        have hlen1 : b1.length = n := by
          simp [hb1def, List.length_set, hble]
        have hcounts1 : ∀ k : Nat, (elems b1).count k = (List.range n).count k := by
          intro k
          have c1 := count_elems_set k b (root t i) (some lii) (some (lii ++ li)) hbii
          have c2 := count_elems_set k (b.set (root t i) (some (lii ++ li))) i
            (some li) none hAi
          simp only [Option.getD_some, Option.getD_none, List.count_append,
            List.count_nil] at c1 c2
          rw [← hb1def] at c2
          have := hB.counts k
          omega
        have hmem1 : ∀ (p : Nat) (l : List Nat), b1[p]? = some (some l) →
            ∀ m ∈ l, root t m = root t p := by
          intro p l hpl m hm
          by_cases hpi : p = i
          · subst hpi; rw [hb1i] at hpl; cases hpl
          · by_cases hpii : p = root t i
            · subst hpii
              rw [hb1ii] at hpl
              have hl : l = lii ++ li := by simpa using hpl.symm
              subst hl
              rcases List.mem_append.mp hm with hm | hm
              · exact hB.memroot (root t i) lii hbii m hm
              · rw [hiiroot]
                exact hB.memroot i li hbi m hm
            · rw [hb1q p hpi hpii] at hpl
              exact hB.memroot p l hpl m hm
        have hhead1 : ∀ (p : Nat) (l : List Nat), b1[p]? = some (some l) →
            l.head? = some p := by
          intro p l hpl
          by_cases hpi : p = i
          · subst hpi; rw [hb1i] at hpl; cases hpl
          · by_cases hpii : p = root t i
            · subst hpii
              rw [hb1ii] at hpl
              have hl : l = lii ++ li := by simpa using hpl.symm
              subst hl
              rw [List.head?_append]
              rw [hB.headp (root t i) lii hbii]
              rfl
            · rw [hb1q p hpi hpii] at hpl
              exact hB.headp p l hpl
        have hkeys1 : ∀ r : Nat, r < n → root t r = r →
            ∃ l, b1[r]? = some (some l) := by
          intro r hr hrr
          by_cases hri : r = i
          · subst hri; exact absurd hrr hroot
          · by_cases hrii : r = root t i
            · subst hrii; exact ⟨lii ++ li, hb1ii⟩
            · obtain ⟨l, hl⟩ := hB.rootskey r hr hrr
              exact ⟨l, by rw [hb1q r hri hrii]; exact hl⟩
        have hproc1 : ∀ (p : Nat) (l : List Nat), p < i + 1 →
            b1[p]? = some (some l) → root t p = p := by
          intro p l hp hpl
          by_cases hpi : p = i
          · subst hpi; rw [hb1i] at hpl; cases hpl
          · by_cases hpii : p = root t i
            · subst hpii; exact hiiroot
            · exact hproc p l (by omega) (by rw [← hb1q p hpi hpii]; exact hpl)
        obtain ⟨b', hb', hB', hall⟩ := ih (i + 1) b1 (by omega)
          ⟨hlen1, hcounts1, hmem1, hhead1, hkeys1⟩ hproc1
        refine ⟨b', ?_, hB', hall⟩
        simp only [reconAux, hbi, hfa, if_neg hroot, hbii]
        exact hb'

theorem get_blocks_spec (n : Nat) (s : UFData) (hI : StateInv n s) (fuel : Nat)
    (hfuel : n ≤ fuel) :
    ∃ s' b, get_blocks fuel s = some (.ok (s', b)) ∧ s'.size = s.size ∧
      s'.table = s.table ∧ s'.blocks = some b ∧ s'.haschanged = false ∧
      BInv n s.table b ∧
      (∀ (p : Nat) (l : List Nat), b[p]? = some (some l) → root s.table p = p) := by
  cases hhc : s.haschanged with
  | true =>
    have hb0 : BInv n s.table (match s.blocks with
        | none => initBlocks s.size | some b => b) := by
      cases hsb : s.blocks with
      | none =>
        have hsz : s.size = n := hI.size_eq
        simpa [hsz] using bInv_initBlocks n s.table
      | some b => simpa using hI.binv b hsb
    obtain ⟨b1, hb1, hB1, hkeys⟩ := reconAux_spec n s.table hI.ent hI.len fuel
      hfuel s.size 0 _ (by have := hI.size_eq; omega) hb0
      (fun p l hp _ => absurd hp (by omega))
    refine ⟨{ s with blocks := some b1, haschanged := false }, b1, ?_,
      rfl, rfl, rfl, rfl, hB1, hkeys⟩
    simp only [get_blocks, hhc, if_true, hb1]
  | false =>
    cases hsb : s.blocks with
    | some b =>
      refine ⟨{ s with blocks := some b }, b, ?_, rfl, rfl, rfl, hhc,
        hI.binv b hsb, hI.clean hhc b hsb⟩
      simp only [get_blocks, hhc, hsb]
      rfl
    | none =>
      refine ⟨{ s with blocks := some (initBlocks s.size) }, initBlocks s.size,
        ?_, rfl, rfl, rfl, hhc, ?_, ?_⟩
      · simp only [get_blocks, hhc, hsb]
        rfl
      · have hsz : s.size = n := hI.size_eq
        simpa [hsz] using bInv_initBlocks n s.table
      · intro p l hpl
        have hp : p < n := by
          have := (List.getElem?_eq_some.mp hpl).1
          have hsz : s.size = n := hI.size_eq
          simpa [initBlocks, hsz] using this
        exact hI.cleanNone hhc hsb p hp

theorem get_blocks_mono (s : UFData) (fuel fuel' : Nat)
    (r : OpRes (UFData × List (Option (List Nat))))
    (h : get_blocks fuel s = some r) (hf : fuel ≤ fuel') :
    get_blocks fuel' s = some r := by
  simp only [get_blocks] at h ⊢
  cases hhc : s.haschanged with
  | false => rw [hhc] at h; simpa using h
  | true =>
    rw [hhc] at h
    simp only [if_true] at h ⊢
    cases hra : reconAux fuel s.table
        (match s.blocks with | none => initBlocks s.size | some b => b)
        0 s.size with
    | none => rw [hra] at h; exact absurd h (by simp)
    | some r2 =>
      rw [hra] at h
      rw [reconAux_mono s.table s.size _ 0 fuel fuel' r2 hra hf]
      exact h

theorem get_blocks_ok_char (n : Nat) (s s' : UFData)
    (b : List (Option (List Nat))) (fuel : Nat) (hI : StateInv n s)
    (h : get_blocks fuel s = some (.ok (s', b))) :
    s'.size = s.size ∧ s'.table = s.table ∧ s'.blocks = some b ∧
    s'.haschanged = false ∧ BInv n s.table b ∧
    (∀ (p : Nat) (l : List Nat), b[p]? = some (some l) → root s.table p = p) := by
  obtain ⟨s2, b2, h2, hsize, htab, hbl, hhc2, hB2, hk2⟩ :=
    get_blocks_spec n s hI (max fuel n) (le_max_right _ _)
  have h' : get_blocks (max fuel n) s = some (.ok (s', b)) :=
    get_blocks_mono s fuel (max fuel n) _ h (le_max_left _ _)
  rw [h2] at h'
  simp only [Option.some.injEq, OpRes.ok.injEq, Prod.mk.injEq] at h'
  obtain ⟨rfl, rfl⟩ := h'
  exact ⟨hsize, htab, hbl, hhc2, hB2, hk2⟩

theorem stateInv_init (n : Nat) : StateInv n (UFData.init n) := by
  refine ⟨rfl, by simp [UFData.init], ?_, ?_, ?_, ?_⟩
  · intro i j hij
    by_cases hi : i < n
    · rw [show (UFData.init n).table = List.range n from rfl,
        List.getElem?_range hi] at hij
      cases hij
      exact le_refl i
    · rw [show (UFData.init n).table = List.range n from rfl,
        List.getElem?_eq_none (by simpa using hi)] at hij
      cases hij
  · intro b hb
    simp [UFData.init] at hb
  · intro _ b hb
    simp [UFData.init] at hb
  · intro _ _ i hi
    exact root_eq_self_of_fix _ (List.getElem?_range hi)

theorem stateInv_unite (n : Nat) (s s' : UFData) (i j fuel : Nat)
    (hI : StateInv n s) (h : unite fuel s i j = some (.ok s')) :
    StateInv n s' := by
  obtain ⟨hi, hj, hs'⟩ := unite_ok_char s s' i j fuel hI.ent h
  subst hs'
  have hE := hI.ent
  have hroots := root_unite s.table hE hi hj
  refine ⟨hI.size_eq, by simp [List.length_set, hI.len],
    entriesLE_set _ hE min_le_max, ?_, ?_, ?_⟩
  · intro b hb
    have hB := hI.binv b hb
    refine ⟨hB.len, hB.counts, ?_, hB.headp, ?_⟩
    · intro p l hpl m hm
      rw [hroots m, hroots p, hB.memroot p l hpl m hm]
    · intro r hr hrr
      apply hB.rootskey r hr
      rw [hroots r] at hrr
      by_cases hc : root s.table r = max (root s.table i) (root s.table j)
      · rw [if_pos hc] at hrr
        obtain ⟨hmin, _⟩ := root_min_max s.table hE hi hj
        rw [← hrr]
        exact hmin
      · rwa [if_neg hc] at hrr
  · intro hhc
    simp at hhc
  · intro hhc
    simp at hhc

theorem stateInv_flatten (n : Nat) (s s' : UFData) (fuel : Nat)
    (hI : StateInv n s) (h : flatten fuel s = some (.ok s')) :
    StateInv n s' := by
  obtain ⟨hsize, hbl, hhc, hlen, hE', hr⟩ :=
    flatten_ok_char s s' fuel hI.ent (by rw [hI.len, hI.size_eq]) h
  refine ⟨by rw [hsize, hI.size_eq], by rw [hlen, hI.len], hE', ?_, ?_, ?_⟩
  · intro b hb
    rw [hbl] at hb
    have hB := hI.binv b hb
    refine ⟨hB.len, hB.counts, ?_, hB.headp, ?_⟩
    · intro p l hpl m hm
      rw [hr m, hr p]
      exact hB.memroot p l hpl m hm
    · intro r hrn hrr
      apply hB.rootskey r hrn
      rw [← hr r]
      exact hrr
  · intro hc b hb p l hpl
    rw [hr p]
    exact hI.clean (by rw [← hhc]; exact hc) b (by rw [← hbl]; exact hb) p l hpl
  · intro hc hb i hi
    rw [hr i]
    exact hI.cleanNone (by rw [← hhc]; exact hc) (by rw [← hbl]; exact hb) i hi

theorem stateInv_blocks (n : Nat) (s s' : UFData)
    (b : List (Option (List Nat))) (fuel : Nat)
    (hI : StateInv n s) (h : get_blocks fuel s = some (.ok (s', b))) :
    StateInv n s' := by
  obtain ⟨hsize, htab, hbl, hhc, hB, hk⟩ := get_blocks_ok_char n s s' b fuel hI h
  refine ⟨by rw [hsize, hI.size_eq], by rw [htab, hI.len],
    by rw [htab]; exact hI.ent, ?_, ?_, ?_⟩
  · intro b2 hb2
    rw [hbl] at hb2
    obtain rfl : b = b2 := by simpa using hb2
    rw [htab]
    exact hB
  · intro _ b2 hb2 p l hpl
    rw [hbl] at hb2
    obtain rfl : b = b2 := by simpa using hb2
    rw [htab]
    exact hk p l hpl
  · intro _ hnone
    rw [hbl] at hnone
    cases hnone

theorem stateInv_step (n : Nat) (s s' : UFData) (hI : StateInv n s)
    (h : UStep n s s') : StateInv n s' := by
  cases h with
  | uniteStep i j fuel hi hj hu => exact stateInv_unite n s s' i j fuel hI hu
  | flattenStep fuel hf => exact stateInv_flatten n s s' fuel hI hf
  | blocksStep b fuel hb => exact stateInv_blocks n s s' b fuel hI hb

theorem reachable_stateInv (n : Nat) (s : UFData) (h : Reachable n s) :
    StateInv n s := by
  induction h with
  | refl => exact stateInv_init n
  | tail hsteps hstep ih => exact stateInv_step n _ _ ih hstep

theorem count_range (n k : Nat) :
    (List.range n).count k = if k < n then 1 else 0 := by
  induction n with
  | zero => simp
  | succ m ih =>
    rw [List.range_succ, List.count_append, ih]
    by_cases hk : k = m
    · subst hk
      simp
    · have h1 : List.count k [m] = 0 := by simp [hk]
      rw [h1]
      split_ifs <;> omega

theorem set_eq_of_getElem? :
    ∀ (l : List Nat) (i v : Nat), l[i]? = some v → l.set i v = l := by
  intro l
  induction l with
  | nil => intro i v h; simp at h
  | cons hd tl ih =>
    intro i v h
    cases i with
    | zero =>
      simp only [List.getElem?_cons_zero, Option.some.injEq] at h
      simp [h]
    | succ q =>
      simp only [List.getElem?_cons_succ] at h
      simp [ih q v h]

theorem get_blocks_table (s : UFData) (fuel : Nat)
    (r : OpRes (UFData × List (Option (List Nat))))
    (h : get_blocks fuel s = some r) : (resState r).table = s.table := by
  simp only [get_blocks] at h
  cases hhc : s.haschanged with
  | false =>
    rw [hhc] at h
    simp only [Bool.false_eq_true, if_false, Option.some.injEq] at h
    subst h
    rfl
  | true =>
    rw [hhc] at h
    simp only [if_true] at h
    cases hra : reconAux fuel s.table
        (match s.blocks with | none => initBlocks s.size | some b => b)
        0 s.size with
    | none => rw [hra] at h; cases h
    | some r2 =>
      rw [hra] at h
      cases r2 with
      | ok b1 =>
        simp only [Option.some.injEq] at h
        subst h
        rfl
      | exn e b1 =>
        simp only [Option.some.injEq] at h
        subst h
        rfl

theorem uStep_nonroot (n : Nat) (s s' : UFData) (i : Nat) (hI : StateInv n s)
    (hstep : UStep n s s') (hnr : root s.table i ≠ i) :
    root s'.table i ≠ i := by
  cases hstep with
  | uniteStep a c fuel ha hc hu =>
    obtain ⟨hal, hcl, rfl⟩ := unite_ok_char s _ a c fuel hI.ent hu
    rw [root_unite s.table hI.ent hal hcl i]
    by_cases hmx : root s.table i = max (root s.table a) (root s.table c)
    · rw [if_pos hmx]
      intro hmin
      obtain ⟨hminr, _⟩ := root_min_max s.table hI.ent hal hcl
      rw [hmin] at hminr
      exact hnr hminr
    · rw [if_neg hmx]
      exact hnr
  | flattenStep fuel hf =>
    obtain ⟨_, _, _, _, _, hr⟩ :=
      flatten_ok_char s s' fuel hI.ent (by rw [hI.len, hI.size_eq]) hf
    rw [hr i]
    exact hnr
  | blocksStep b fuel hb =>
    obtain ⟨_, htab, _, _, _, _⟩ := get_blocks_ok_char n s s' b fuel hI hb
    rw [htab]
    exact hnr

/-- Claim C9: in every reachable state the parent table satisfies
`parent[i] ≤ i` for every index, so the parent-chasing loop of `find(i)`
terminates: with fuel `i + 1` it already returns the root of `i`. -/
theorem C9_find_terminates (n : Nat) (s : UFData) (h : Reachable n s) :
    (∀ (i j : Nat), s.table[i]? = some j → j ≤ i) ∧
    (∀ i : Nat, i < n →
      findAux s.table (i + 1) i = some (.ok (root s.table i))) := by
  have hI := reachable_stateInv n s h
  refine ⟨hI.ent, fun i hi => (root_spec s.table hI.ent ?_).1⟩
  rw [hI.len]
  exact hi

/-- Claim C9 witness. -/
theorem C9_witness :
    (∀ (i j : Nat), (UFData.init 3).table[i]? = some j → j ≤ i) ∧
    (∀ i : Nat, i < 3 →
      findAux (UFData.init 3).table (i + 1) i
        = some (.ok (root (UFData.init 3).table i))) :=
  C9_find_terminates 3 (UFData.init 3) Relation.ReflTransGen.refl

/-- Claim C7: in every reachable state, `find(i)` returns normally for
`i < size` and throws exactly when `i ≥ size`; `unite(i, j)` returns normally
when both indices are in range and throws exactly when one is out of range;
and any throwing `unite` call leaves the structure unchanged. -/
theorem C7_index_range_errors (n : Nat) (s : UFData) (h : Reachable n s) :
    (∀ i : Nat, i < n → ∃ r, findAux s.table (i + 1) i = some (.ok r)) ∧
    (∀ (i fuel : Nat), n ≤ i → 1 ≤ fuel → findAux s.table fuel i = some .err) ∧
    (∀ i j : Nat, i < n → j < n →
      unite (n + 1) s i j = some (.ok { s with
        table := s.table.set (max (root s.table i) (root s.table j))
                             (min (root s.table i) (root s.table j)),
        haschanged := true })) ∧
    (∀ i j : Nat, n ≤ i ∨ n ≤ j → unite (n + 1) s i j = some (.exn .oob s)) ∧
    (∀ (i j fuel : Nat) (e : Err) (s' : UFData),
      unite fuel s i j = some (.exn e s') → s' = s) := by
  have hI := reachable_stateInv n s h
  have hlen : s.table.length = n := hI.len
  have herr : ∀ (m fuel : Nat), n ≤ m → 1 ≤ fuel →
      findAux s.table fuel m = some .err := by
    intro m fuel hm hfuel
    obtain ⟨f, rfl⟩ : ∃ f, fuel = f + 1 := ⟨fuel - 1, by omega⟩
    simp [findAux, List.getElem?_eq_none (by omega : s.table.length ≤ m)]
  refine ⟨?_, ?_, ?_, ?_, ?_⟩
  · intro i hi
    exact ⟨root s.table i, (root_spec s.table hI.ent (by omega)).1⟩
  · exact fun i fuel hni hf => herr i fuel hni hf
  · intro i j hi hj
    exact unite_eq s i j (n + 1) hI.ent (by omega) (by omega) (by omega) (by omega)
  · intro i j hij
    rcases hij with hni | hnj
    · unfold unite
      rw [herr i (n + 1) hni (by omega)]
    · by_cases hi : i < n
      · unfold unite
        rw [findAux_eq_root s.table hI.ent (by omega) (by omega),
          herr j (n + 1) hnj (by omega)]
      · unfold unite
        rw [herr i (n + 1) (by omega) (by omega)]
  · intro i j fuel e s' hu
    unfold unite at hu
    cases hfi : findAux s.table fuel i with
    | none => rw [hfi] at hu; cases hu
    | some oi =>
      rw [hfi] at hu
      cases oi with
      | err =>
        simp only [Option.some.injEq, OpRes.exn.injEq] at hu
        exact hu.2.symm
      | ok ii =>
        cases hfj : findAux s.table fuel j with
        | none => rw [hfj] at hu; cases hu
        | some oj =>
          rw [hfj] at hu
          cases oj with
          | err =>
            simp only [Option.some.injEq, OpRes.exn.injEq] at hu
            exact hu.2.symm
          | ok jj =>
            dsimp only at hu
            by_cases hlt : ii < jj
            · rw [if_pos hlt] at hu
              by_cases hjl : jj < s.table.length
              · rw [if_pos hjl] at hu; cases hu
              · rw [if_neg hjl] at hu
                simp only [Option.some.injEq, OpRes.exn.injEq] at hu
                exact hu.2.symm
            · rw [if_neg hlt] at hu
              by_cases hil : ii < s.table.length
              · rw [if_pos hil] at hu; cases hu
              · rw [if_neg hil] at hu
                simp only [Option.some.injEq, OpRes.exn.injEq] at hu
                exact hu.2.symm

/-- Claim C7 witness. -/
theorem C7_witness :
    (∀ i : Nat, i < 2 →
      ∃ r, findAux (UFData.init 2).table (i + 1) i = some (.ok r)) ∧
    (∀ (i fuel : Nat), 2 ≤ i → 1 ≤ fuel →
      findAux (UFData.init 2).table fuel i = some .err) ∧
    (∀ i j : Nat, i < 2 → j < 2 →
      unite 3 (UFData.init 2) i j = some (.ok { UFData.init 2 with
        table := (UFData.init 2).table.set
          (max (root (UFData.init 2).table i) (root (UFData.init 2).table j))
          (min (root (UFData.init 2).table i) (root (UFData.init 2).table j)),
        haschanged := true })) ∧
    (∀ i j : Nat, 2 ≤ i ∨ 2 ≤ j →
      unite 3 (UFData.init 2) i j = some (.exn .oob (UFData.init 2))) ∧
    (∀ (i j fuel : Nat) (e : Err) (s' : UFData),
      unite fuel (UFData.init 2) i j = some (.exn e s') → s' = UFData.init 2) :=
  C7_index_range_errors 2 (UFData.init 2) Relation.ReflTransGen.refl

/-- Claim C8: `flatten()` succeeds on every reachable state, never changes the
root observed by `find` for any in-range index, and changes neither the dirty
flag nor the blocks cache. -/
theorem C8_flatten_preserves (n : Nat) (s : UFData) (h : Reachable n s) :
    (∃ s', flatten n s = some (.ok s')) ∧
    (∀ (fuel : Nat) (s' : UFData), flatten fuel s = some (.ok s') →
      (∀ i : Nat, i < n → root s'.table i = root s.table i) ∧
      s'.haschanged = s.haschanged ∧ s'.blocks = s.blocks) := by
  have hI := reachable_stateInv n s h
  constructor
  · obtain ⟨s', hs', _⟩ := flatten_spec s n hI.ent (by rw [hI.len, hI.size_eq])
      (by have := hI.size_eq; omega)
    exact ⟨s', hs'⟩
  · intro fuel s' hs'
    obtain ⟨_, hbl, hhc, _, _, hr⟩ :=
      flatten_ok_char s s' fuel hI.ent (by rw [hI.len, hI.size_eq]) hs'
    exact ⟨fun i _ => hr i, hhc, hbl⟩

/-- Claim C8 witness: a structure of size 3 with a genuine two-step parent
chain, reached by `unite(1,2)` then `unite(0,1)`. -/
theorem C8_witness :
    (∃ s', flatten 3 (UFData.mk 3 [0, 0, 1] none true) = some (.ok s')) ∧
    (∀ (fuel : Nat) (s' : UFData),
      flatten fuel (UFData.mk 3 [0, 0, 1] none true) = some (.ok s') →
      (∀ i : Nat, i < 3 →
        root s'.table i = root (UFData.mk 3 [0, 0, 1] none true).table i) ∧
      s'.haschanged = (UFData.mk 3 [0, 0, 1] none true).haschanged ∧
      s'.blocks = (UFData.mk 3 [0, 0, 1] none true).blocks) :=
  C8_flatten_preserves 3 (UFData.mk 3 [0, 0, 1] none true)
    (Relation.ReflTransGen.tail
      (Relation.ReflTransGen.single
        (UStep.uniteStep (UFData.init 3) (UFData.mk 3 [0, 1, 1] none true)
          1 2 4 (by decide) (by decide) (by decide)))
      (UStep.uniteStep (UFData.mk 3 [0, 1, 1] none true)
        (UFData.mk 3 [0, 0, 1] none true) 0 1 4 (by decide) (by decide)
        (by decide)))

/-- Claim C10: once an in-range index stops being a class representative in a
reachable state, it never becomes one again under further `unite`, `flatten`
or `blocks()` calls. -/
theorem C10_nonroot_permanent (n : Nat) (s s' : UFData) (i : Nat)
    (hre : Reachable n s) (hsteps : Relation.ReflTransGen (UStep n) s s')
    (hi : i < n) (hnr : root s.table i ≠ i) : root s'.table i ≠ i := by
  induction hsteps with
  | refl => exact hnr
  | tail hst hstep ih =>
    have hIb := reachable_stateInv n _ (Relation.ReflTransGen.trans hre hst)
    exact uStep_nonroot n _ _ i hIb hstep ih

/-- Claim C10 witness: index 1 stops being a root after `unite(0,1)` on a
fresh size-2 structure, and remains a non-root after a further `flatten`. -/
theorem C10_witness : root (UFData.mk 2 [0, 0] none true).table 1 ≠ 1 :=
  C10_nonroot_permanent 2 (UFData.mk 2 [0, 0] none true)
    (UFData.mk 2 [0, 0] none true) 1
    (Relation.ReflTransGen.single
      (UStep.uniteStep (UFData.init 2) (UFData.mk 2 [0, 0] none true)
        0 1 3 (by decide) (by decide) (by decide)))
    (Relation.ReflTransGen.single
      (UStep.flattenStep (UFData.mk 2 [0, 0] none true)
        (UFData.mk 2 [0, 0] none true) 3 (by decide)))
    (by decide) (by decide)

/-- Claim C2: a successful `unite(i, j)` writes the smaller of the two roots
into the table slot of the larger (`parent[max(ri,rj)] = min(ri,rj)`), and
consequently every key of a successful `blocks()` call is a root and is the
minimum index of its class. -/
theorem C2_min_representative (n : Nat) (s : UFData) (h : Reachable n s) :
    (∀ (i j fuel : Nat) (s' : UFData),
      root s.table i ≠ root s.table j →
      unite fuel s i j = some (.ok s') →
      s'.table = s.table.set (max (root s.table i) (root s.table j))
                             (min (root s.table i) (root s.table j))) ∧
    (∀ (fuel : Nat) (s' : UFData) (b : List (Option (List Nat))),
      get_blocks fuel s = some (.ok (s', b)) →
      ∀ (r : Nat) (l : List Nat), b[r]? = some (some l) →
        root s.table r = r ∧
        ∀ k : Nat, k < n → root s.table k = root s.table r → r ≤ k) := by
  have hI := reachable_stateInv n s h
  constructor
  · intro i j fuel s' _ hu
    obtain ⟨_, _, rfl⟩ := unite_ok_char s s' i j fuel hI.ent hu
    rfl
  · intro fuel s' b hgb r l hrl
    obtain ⟨_, _, _, _, _, hk⟩ := get_blocks_ok_char n s s' b fuel hI hgb
    have hroot : root s.table r = r := hk r l hrl
    refine ⟨hroot, ?_⟩
    intro k hkn hkr
    rw [hroot] at hkr
    calc r = root s.table k := hkr.symm
    _ ≤ k := root_le s.table hI.ent (by rw [hI.len]; exact hkn)

/-- Claim C2 witness: the scenario `size = 6`, `unite(4,1)`, `unite(2,5)`,
`unite(1,2)`. -/
theorem C2_witness :
    root (UFData.mk 6 [0, 1, 2, 3, 1, 2] none true).table 1
      ≠ root (UFData.mk 6 [0, 1, 2, 3, 1, 2] none true).table 2 ∧
    (UFData.mk 6 [0, 1, 1, 3, 1, 2] none true).table
      = (UFData.mk 6 [0, 1, 2, 3, 1, 2] none true).table.set
        (max (root (UFData.mk 6 [0, 1, 2, 3, 1, 2] none true).table 1)
             (root (UFData.mk 6 [0, 1, 2, 3, 1, 2] none true).table 2))
        (min (root (UFData.mk 6 [0, 1, 2, 3, 1, 2] none true).table 1)
             (root (UFData.mk 6 [0, 1, 2, 3, 1, 2] none true).table 2)) :=
  ⟨by decide,
    (C2_min_representative 6 (UFData.mk 6 [0, 1, 2, 3, 1, 2] none true)
      (Relation.ReflTransGen.tail
        (Relation.ReflTransGen.single
          (UStep.uniteStep (UFData.init 6) (UFData.mk 6 [0, 1, 2, 3, 1, 5] none true)
            4 1 7 (by decide) (by decide) (by decide)))
        (UStep.uniteStep (UFData.mk 6 [0, 1, 2, 3, 1, 5] none true)
          (UFData.mk 6 [0, 1, 2, 3, 1, 2] none true)
          2 5 7 (by decide) (by decide) (by decide)))).1
      1 2 7 (UFData.mk 6 [0, 1, 1, 3, 1, 2] none true) (by decide) (by decide)⟩

/-- Claim C1: after any reachable state's `blocks()` call completes, each
in-range index `i` occurs exactly once among all block lists, namely inside
the list keyed by `find(i)`, and in no list with a different key. -/
theorem C1_blocks_find_consistency (n : Nat) (s : UFData) (i fuel : Nat)
    (s' : UFData) (b : List (Option (List Nat)))
    (h : Reachable n s) (hi : i < n)
    (hgb : get_blocks fuel s = some (.ok (s', b))) :
    (elems b).count i = 1 ∧
    (∃ l, b[root s'.table i]? = some (some l) ∧ l.count i = 1) ∧
    (∀ (q : Nat) (l : List Nat), b[q]? = some (some l) → i ∈ l →
      q = root s'.table i) := by
  have hI := reachable_stateInv n s h
  obtain ⟨_, htab, _, _, hB, hk⟩ := get_blocks_ok_char n s s' b fuel hI hgb
  have hcount : (elems b).count i = 1 := by
    rw [hB.counts i, count_range, if_pos hi]
  have hmem : i ∈ elems b := by
    by_contra hno
    rw [List.count_eq_zero_of_not_mem hno] at hcount
    cases hcount
  obtain ⟨p, l, hpl, hil⟩ := mem_elems_key b i hmem
  have hp_root : root s.table p = p := hk p l hpl
  have hip : root s.table i = p := by
    rw [← hp_root]
    exact hB.memroot p l hpl i hil
  refine ⟨hcount, ⟨l, ?_, ?_⟩, ?_⟩
  · rw [htab, hip]
    exact hpl
  · have hle : l.count i ≤ (elems b).count i := count_le_of_key i b p l hpl
    have hpos : 0 < l.count i := List.count_pos_iff.mpr hil
    omega
  · intro q l2 hql hiq
    have hq_root : root s.table q = q := hk q l2 hql
    have : root s.table i = q := by
      rw [← hq_root]
      exact hB.memroot q l2 hql i hiq
    rw [htab, ← this]

/-- Claim C1 witness: the `size = 6` scenario after three unions, at
index 4. -/
theorem C1_witness :
    (elems [some [0], some [1, 2, 4, 5], none, some [3], none, none]).count 4 = 1 ∧
    (∃ l, [some [0], some [1, 2, 4, 5], none, some [3], none, none][
        root (UFData.mk 6 [0, 1, 1, 3, 1, 2]
          (some [some [0], some [1, 2, 4, 5], none, some [3], none, none])
          false).table 4]? = some (some l) ∧ l.count 4 = 1) ∧
    (∀ (q : Nat) (l : List Nat),
      [some [0], some [1, 2, 4, 5], none, some [3], none, none][q]?
        = some (some l) → 4 ∈ l →
      q = root (UFData.mk 6 [0, 1, 1, 3, 1, 2]
          (some [some [0], some [1, 2, 4, 5], none, some [3], none, none])
          false).table 4) :=
  C1_blocks_find_consistency 6 (UFData.mk 6 [0, 1, 1, 3, 1, 2] none true) 4 7
    (UFData.mk 6 [0, 1, 1, 3, 1, 2]
      (some [some [0], some [1, 2, 4, 5], none, some [3], none, none]) false)
    [some [0], some [1, 2, 4, 5], none, some [3], none, none]
    (Relation.ReflTransGen.tail
      (Relation.ReflTransGen.tail
        (Relation.ReflTransGen.single
          (UStep.uniteStep (UFData.init 6)
            (UFData.mk 6 [0, 1, 2, 3, 1, 5] none true)
            4 1 7 (by decide) (by decide) (by decide)))
        (UStep.uniteStep (UFData.mk 6 [0, 1, 2, 3, 1, 5] none true)
          (UFData.mk 6 [0, 1, 2, 3, 1, 2] none true)
          2 5 7 (by decide) (by decide) (by decide)))
      (UStep.uniteStep (UFData.mk 6 [0, 1, 2, 3, 1, 2] none true)
        (UFData.mk 6 [0, 1, 1, 3, 1, 2] none true)
        1 2 7 (by decide) (by decide) (by decide)))
    (by decide) (by decide)

/-- Claim C3: in every reachable state whose blocks are materialized and whose
dirty flag is false, the block lists contain each index of `{0,…,size-1}`
exactly once and nothing else, and every non-null (hence non-empty) key is a
root. -/
theorem C3_clean_state_invariant (n : Nat) (s : UFData)
    (b : List (Option (List Nat))) (h : Reachable n s)
    (hb : s.blocks = some b) (hc : s.haschanged = false) :
    (∀ k : Nat, k < n → (elems b).count k = 1) ∧
    (∀ k : Nat, n ≤ k → (elems b).count k = 0) ∧
    (∀ (r : Nat) (l : List Nat), b[r]? = some (some l) →
      l ≠ [] ∧ root s.table r = r) := by
  have hI := reachable_stateInv n s h
  have hB := hI.binv b hb
  refine ⟨?_, ?_, ?_⟩
  · intro k hk
    rw [hB.counts k, count_range, if_pos hk]
  · intro k hk
    rw [hB.counts k, count_range, if_neg (by omega)]
  · intro r l hrl
    refine ⟨?_, hI.clean hc b hb r l hrl⟩
    intro hnil
    have := hB.headp r l hrl
    rw [hnil] at this
    cases this

/-- Claim C3 witness: the clean state after `blocks()` on the `size = 6`
scenario. -/
theorem C3_witness :
    (∀ k : Nat, k < 6 →
      (elems [some [0], some [1, 2, 4, 5], none, some [3], none, none]).count k
        = 1) ∧
    (∀ k : Nat, 6 ≤ k →
      (elems [some [0], some [1, 2, 4, 5], none, some [3], none, none]).count k
        = 0) ∧
    (∀ (r : Nat) (l : List Nat),
      [some [0], some [1, 2, 4, 5], none, some [3], none, none][r]?
        = some (some l) →
      l ≠ [] ∧ root (UFData.mk 6 [0, 1, 1, 3, 1, 2]
        (some [some [0], some [1, 2, 4, 5], none, some [3], none, none])
        false).table r = r) :=
  C3_clean_state_invariant 6
    (UFData.mk 6 [0, 1, 1, 3, 1, 2]
      (some [some [0], some [1, 2, 4, 5], none, some [3], none, none]) false)
    [some [0], some [1, 2, 4, 5], none, some [3], none, none]
    (Relation.ReflTransGen.tail
      (Relation.ReflTransGen.tail
        (Relation.ReflTransGen.tail
          (Relation.ReflTransGen.single
            (UStep.uniteStep (UFData.init 6)
              (UFData.mk 6 [0, 1, 2, 3, 1, 5] none true)
              4 1 7 (by decide) (by decide) (by decide)))
          (UStep.uniteStep (UFData.mk 6 [0, 1, 2, 3, 1, 5] none true)
            (UFData.mk 6 [0, 1, 2, 3, 1, 2] none true)
            2 5 7 (by decide) (by decide) (by decide)))
        (UStep.uniteStep (UFData.mk 6 [0, 1, 2, 3, 1, 2] none true)
          (UFData.mk 6 [0, 1, 1, 3, 1, 2] none true)
          1 2 7 (by decide) (by decide) (by decide)))
      (UStep.blocksStep (UFData.mk 6 [0, 1, 1, 3, 1, 2] none true)
        (UFData.mk 6 [0, 1, 1, 3, 1, 2]
          (some [some [0], some [1, 2, 4, 5], none, some [3], none, none])
          false)
        [some [0], some [1, 2, 4, 5], none, some [3], none, none]
        7 (by decide)))
    rfl rfl

/-- Claim C4 counterexample: on a fresh size-2 structure, `unite(0, 0)` joins
two indices that already share a root, yet the resulting state differs from
the original — the dirty flag has been set. -/
theorem C4_counterexample :
    Reachable 2 (UFData.init 2) ∧
    root (UFData.init 2).table 0 = root (UFData.init 2).table 0 ∧
    unite 3 (UFData.init 2) 0 0
      = some (.ok (UFData.mk 2 [0, 1] none true)) ∧
    UFData.mk 2 [0, 1] none true ≠ UFData.init 2 :=
  ⟨Relation.ReflTransGen.refl, rfl, by decide, by decide⟩

/-- Claim C4 amended: `unite(i, j)` on in-range indices with equal roots
leaves the parent table and the blocks cache unchanged, but unconditionally
sets the dirty flag to true. -/
theorem C4_idempotent_amended (n : Nat) (s : UFData) (i j fuel : Nat)
    (s' : UFData) (h : Reachable n s) (hi : i < n) (hj : j < n)
    (heq : root s.table i = root s.table j)
    (hu : unite fuel s i j = some (.ok s')) :
    s'.table = s.table ∧ s'.blocks = s.blocks ∧ s'.haschanged = true := by
  have hI := reachable_stateInv n s h
  obtain ⟨hil, hjl, rfl⟩ := unite_ok_char s s' i j fuel hI.ent hu
  refine ⟨?_, rfl, rfl⟩
  rw [← heq, max_self, min_self]
  exact set_eq_of_getElem? s.table (root s.table i) (root s.table i)
    (root_fix s.table hI.ent hil)

/-- Claim C4 amended witness. -/
theorem C4_amended_witness :
    (UFData.mk 2 [0, 1] none true).table = (UFData.init 2).table ∧
    (UFData.mk 2 [0, 1] none true).blocks = (UFData.init 2).blocks ∧
    (UFData.mk 2 [0, 1] none true).haschanged = true :=
  C4_idempotent_amended 2 (UFData.init 2) 0 0 3 (UFData.mk 2 [0, 1] none true)
    Relation.ReflTransGen.refl (by decide) (by decide) rfl (by decide)

/-- Claim C5 counterexample: there is no reachable dirty state in which a
`blocks()` call modifies the parent table — the reconciliation pass touches
only the block lists. -/
theorem C5_counterexample :
    ¬ ∃ (n : Nat) (s : UFData) (fuel : Nat)
        (r : OpRes (UFData × List (Option (List Nat)))),
      Reachable n s ∧ s.haschanged = true ∧ get_blocks fuel s = some r ∧
      (resState r).table ≠ s.table := by
  rintro ⟨n, s, fuel, r, _, _, hgb, hne⟩
  exact hne (get_blocks_table s fuel r hgb)

/-- Claim C5 amended: `blocks()` never modifies the parent table in any state
whatsoever; path compression happens only through `flatten`, which does change
the table on a reachable state with a two-step chain. -/
theorem C5_blocks_no_compression_amended :
    (∀ (s : UFData) (fuel : Nat)
        (r : OpRes (UFData × List (Option (List Nat)))),
      get_blocks fuel s = some r → (resState r).table = s.table) ∧
    (∃ (s s' : UFData) (fuel : Nat), Reachable 3 s ∧
      flatten fuel s = some (.ok s') ∧ s'.table ≠ s.table) := by
  constructor
  · exact get_blocks_table
  · refine ⟨UFData.mk 3 [0, 0, 1] none true, UFData.mk 3 [0, 0, 0] none true,
      3, ?_, by decide, by decide⟩
    exact Relation.ReflTransGen.tail
      (Relation.ReflTransGen.single
        (UStep.uniteStep (UFData.init 3) (UFData.mk 3 [0, 1, 1] none true)
          1 2 4 (by decide) (by decide) (by decide)))
      (UStep.uniteStep (UFData.mk 3 [0, 1, 1] none true)
        (UFData.mk 3 [0, 0, 1] none true) 0 1 4 (by decide) (by decide)
        (by decide))

/-- Claim C5 amended witness. -/
theorem C5_amended_witness :
    get_blocks 3 (UFData.init 1)
      = some (.ok (UFData.mk 1 [0] (some [some [0]]) false, [some [0]])) ∧
    (resState (.ok (UFData.mk 1 [0] (some [some [0]]) false,
      [some [0]]))).table = (UFData.init 1).table :=
  ⟨by decide,
    C5_blocks_no_compression_amended.1 (UFData.init 1) 3 _ (by decide)⟩

/-- Claim C6: the concrete scenario `size = 6`, `unite(4,1)`, `unite(2,5)`,
`unite(1,2)` followed by `blocks()` yields exactly the classes
`0 ↦ [0]`, `1 ↦ [1,2,4,5]`, `3 ↦ [3]` and no others, with class 1 in that
exact order. -/
theorem C6_concrete_scenario :
    run 7 (UFData.init 6) [.u 4 1, .u 2 5, .u 1 2]
      = some (UFData.mk 6 [0, 1, 1, 3, 1, 2] none true) ∧
    get_blocks 7 (UFData.mk 6 [0, 1, 1, 3, 1, 2] none true)
      = some (.ok (UFData.mk 6 [0, 1, 1, 3, 1, 2]
          (some [some [0], some [1, 2, 4, 5], none, some [3], none, none])
          false,
        [some [0], some [1, 2, 4, 5], none, some [3], none, none])) :=
  ⟨by decide, by decide⟩

end UF
